import Mathlib

/-!
Verification development for the EOD GitHub contribution tracker.

The TypeScript sources are shallowly embedded below:

* timestamps: the code stores ISO-8601 strings and compares them via
  `new Date(...).getTime()`; we embed an instant directly as its epoch
  value in milliseconds (`Int`).  `setHours(0,0,0,0)` on a local `Date`
  floors the instant to its civil day; we model local time with UTC
  offset 0, so flooring is subtraction of the remainder modulo
  86400000 ms.
* the data shapes (`Commit`, `Contribution`, `GitHubEvent`, config
  records) follow src/types.ts.
* `EODProcessor.process`, `Reporter.sortAndDedup`, the branch-sampling
  and commit-merging logic of `GitHubService.getCommitsForRepo`, the
  event synthesis of `fetchEvents`, and the repo-name resolution at the
  top of `main` (src/main.ts) are translated function by function.
-/

/-- Milliseconds per civil day. -/
def msPerDay : Int := 86400000

/-- `setHours(0,0,0,0)`: floor an instant to the start of its day
(local time modelled as UTC). -/
def dayStart (t : Int) : Int := t - t % msPerDay

/-- `setHours(23,59,59,999)`: last millisecond of the day of `t`. -/
def dayEnd (t : Int) : Int := dayStart t + (msPerDay - 1)

/-- Author field of a commit inside a push-event payload
(src/types.ts: `{ name: string, email?: string }`). -/
structure CommitAuthor where
  name : String
  email : Option String
deriving DecidableEq, Repr

/-- A commit as it appears in `event.payload.commits` (src/types.ts). -/
structure RawCommit where
  sha : String
  message : String
  author : CommitAuthor
deriving DecidableEq, Repr

/-- `event.repo` (src/types.ts). -/
structure EventRepo where
  name : String
deriving DecidableEq, Repr

/-- `event.payload` (src/types.ts); `commits` is optional. -/
structure EventPayload where
  commits : Option (List RawCommit)
deriving DecidableEq, Repr

/-- `event.actor` (src/types.ts). -/
structure EventActor where
  login : String
deriving DecidableEq, Repr

/-- A GitHub event record (src/types.ts `GitHubEvent`); `created_at`
is embedded as an epoch instant in milliseconds. -/
structure GitHubEvent where
  created_at : Int
  type : String
  repo : EventRepo
  payload : EventPayload
  actor : Option EventActor
deriving DecidableEq, Repr

/-- The report-side commit record (src/types.ts `Commit`): truncated
hash, message, author display name, timestamp of the enclosing event. -/
structure Commit where
  hash : String
  message : String
  author : String
  timestamp : Int
deriving DecidableEq, Repr

/-- One repository's contributions (src/types.ts `Contribution`). -/
structure Contribution where
  repo : String
  commits : List Commit
deriving DecidableEq, Repr

/-- The configuration slice used by `EODProcessor`
(src/services/EODProcessor.ts `EODProcessorConfig`). -/
structure EODConfig where
  targetRepos : List String
  targetUsers : List String
  date : Int
deriving DecidableEq, Repr

/-- `EODProcessor.isDateInRange` (src/services/EODProcessor.ts:23-30):
the event instant must lie in `[setHours(0,0,0,0), setHours(23,59,59,999)]`
of the configured date, both ends inclusive. -/
def isDateInRange (cfgDate eventDate : Int) : Bool :=
  decide (dayStart cfgDate ≤ eventDate) && decide (eventDate ≤ dayEnd cfgDate)

/-- The event predicate of `EODProcessor.process`
(src/services/EODProcessor.ts:35-52): push type, date window,
repo match (empty target list matches all) and user match
(empty target list matches all, else some commit author or the
actor login is targeted). -/
def eventFilter (cfg : EODConfig) (e : GitHubEvent) : Bool :=
  if e.type ≠ "PushEvent" then false
  else if ¬ (isDateInRange cfg.date e.created_at) then false
  else
    let repoMatch :=
      cfg.targetRepos.isEmpty || cfg.targetRepos.contains e.repo.name
    let userMatch :=
      cfg.targetUsers.isEmpty
        || (match e.payload.commits with
            | some cs => cs.any (fun c => cfg.targetUsers.contains c.author.name)
            | none => false)
        || (match e.actor with
            | some a => cfg.targetUsers.contains a.login
            | none => false)
    repoMatch && userMatch

/-- Conversion of one payload commit of event `e` to a report `Commit`
(src/services/EODProcessor.ts:61-66): hash is the first seven
characters of the full sha, the timestamp is the event's `created_at`. -/
def mkCommit (e : GitHubEvent) (c : RawCommit) : Commit :=
  { hash := c.sha.take 7
    message := c.message
    author := c.author.name
    timestamp := e.created_at }

/-- The per-commit author filter and conversion inside the processing
loop (src/services/EODProcessor.ts:59-66).  Note the filter is applied
unconditionally, also when `targetUsers` is empty. -/
def userCommitsOf (cfg : EODConfig) (e : GitHubEvent) (cs : List RawCommit) : List Commit :=
  (cs.filter (fun c => cfg.targetUsers.contains c.author.name)).map (mkCommit e)

/-- `contributions.find(c => c.repo === repoName)` followed by either
`push`ing the commits onto the found entry or appending a fresh entry
(src/services/EODProcessor.ts:70-76). -/
def addToRepo : List Contribution → String → List Commit → List Contribution
  | [], name, cs => [⟨name, cs⟩]
  | c :: rest, name, cs =>
      if c.repo = name then ⟨c.repo, c.commits ++ cs⟩ :: rest
      else c :: addToRepo rest name cs

/-- The `for (const event of filteredEvents)` loop of
`EODProcessor.process` (src/services/EODProcessor.ts:54-77):
skip events without a commits payload, skip events whose filtered
commit list is empty, otherwise group the converted commits under the
event's repository. -/
def processLoop (cfg : EODConfig) : List Contribution → List GitHubEvent → List Contribution
  | contribs, [] => contribs
  | contribs, e :: es =>
      match e.payload.commits with
      | none => processLoop cfg contribs es
      | some cs =>
          let ucs := userCommitsOf cfg e cs
          if ucs = [] then processLoop cfg contribs es
          else processLoop cfg (addToRepo contribs e.repo.name ucs) es

/-- `EODProcessor.process` (src/services/EODProcessor.ts:32-80). -/
def process (cfg : EODConfig) (events : List GitHubEvent) : List Contribution :=
  processLoop cfg [] (events.filter (eventFilter cfg))

/-- C5: the date filter of the EOD Processor is inclusive on both ends
of the calendar day: instants exactly at the start or at the end of the
day pass `isDateInRange`, and instants one millisecond outside either
boundary fail it. -/
theorem c5_date_filter_inclusive_boundaries (d : Int) :
    isDateInRange d (dayStart d) = true ∧
    isDateInRange d (dayEnd d) = true ∧
    isDateInRange d (dayStart d - 1) = false ∧
    isDateInRange d (dayEnd d + 1) = false := by
  refine ⟨?_, ?_, ?_, ?_⟩ <;>
    simp only [isDateInRange, dayEnd, msPerDay, Bool.and_eq_true, Bool.and_eq_false_iff,
      decide_eq_true_eq, decide_eq_false_iff_not, not_le] <;>
    omega

/-- With an empty target-user list the per-commit author filter of
`process` drops every commit: `[].includes(name)` is false, so
`userCommitsOf` is empty for every event. -/
theorem userCommitsOf_empty_users (repos : List String) (d : Int)
    (e : GitHubEvent) (cs : List RawCommit) :
    userCommitsOf ⟨repos, [], d⟩ e cs = [] := by
  simp [userCommitsOf, List.filter_eq_nil_iff]

/-- C1: evaluation of the code at the failing configuration.  With an
empty target-user list `EODProcessor.process` returns no contributions
at all, whatever the events are: the per-commit author filter at
src/services/EODProcessor.ts:60 is applied unconditionally, so every
commit of every qualifying event is dropped (the claim, and the sibling
implementation in src/src/services, expect empty to mean "all"). -/
theorem c1_empty_target_users_drops_everything
    (repos : List String) (d : Int) (events : List GitHubEvent) :
    process ⟨repos, [], d⟩ events = [] := by
  show processLoop _ [] _ = []
  generalize events.filter (eventFilter ⟨repos, [], d⟩) = L
  induction L with
  | nil => rfl
  | cons e es ih =>
      cases h : e.payload.commits with
      | none => simpa [processLoop, h] using ih
      | some cs => simpa [processLoop, h, userCommitsOf_empty_users] using ih

/-- The comparator of `Reporter.sortAndDedup`
(src/services/Reporter.ts:127-130): `(a, b) => b.getTime() - a.getTime()`
orders commits by descending timestamp.  `commitLeDesc a b` holds when
`a` may come no later than `b` under that comparator.  JavaScript's
`Array.prototype.sort` is guaranteed stable, and a stable sort's output
is uniquely determined by the comparator, so any stable sorting
algorithm is a faithful model; we use insertion sort. -/
def commitLeDesc (a b : Commit) : Prop := b.timestamp ≤ a.timestamp

instance : DecidableRel commitLeDesc := fun a b =>
  inferInstanceAs (Decidable (b.timestamp ≤ a.timestamp))

instance : IsTotal Commit commitLeDesc :=
  ⟨fun a b => Int.le_total b.timestamp a.timestamp⟩

instance : IsTrans Commit commitLeDesc :=
  ⟨fun _ _ _ hab hbc => le_trans hbc hab⟩

/-- One `Map.prototype.set` step on an association list: if the key is
present its value is updated in place, otherwise the pair is appended. -/
def mapSet {κ β : Type} [DecidableEq κ] : List (κ × β) → κ → β → List (κ × β)
  | [], k, v => [(k, v)]
  | (k₀, v₀) :: rest, k, v =>
      if k₀ = k then (k₀, v) :: rest
      else (k₀, v₀) :: mapSet rest k v

/-- `new Map(pairs)`: insert the pairs left to right.  A duplicated key
keeps its first-insertion position but ends with its last value. -/
def jsMapOfList {κ β : Type} [DecidableEq κ] (pairs : List (κ × β)) : List (κ × β) :=
  pairs.foldl (fun m p => mapSet m p.1 p.2) []

/-- `Reporter.sortAndDedup` (src/services/Reporter.ts:126-132, and the
identical copy at src/src/services/Reporter.ts:161-167): stable sort by
descending timestamp, then `Array.from(new Map(sorted.map(c => [c.hash, c])).values())`. -/
def sortAndDedup (commits : List Commit) : List Commit :=
  (jsMapOfList ((List.insertionSort commitLeDesc commits).map
    (fun c => (c.hash, c)))).map Prod.snd

example :
    sortAndDedup
      [⟨"aaa", "m1", "u", 10⟩, ⟨"bbb", "m2", "u", 5⟩, ⟨"aaa", "m3", "u", 1⟩] =
      [⟨"aaa", "m3", "u", 1⟩, ⟨"bbb", "m2", "u", 5⟩] := by decide

theorem mapSet_keys {κ β : Type} [DecidableEq κ] (m : List (κ × β)) (k : κ) (v : β) :
    (mapSet m k v).map Prod.fst =
      if k ∈ m.map Prod.fst then m.map Prod.fst else m.map Prod.fst ++ [k] := by
  induction m with
  | nil => simp [mapSet]
  | cons q rest ih =>
      obtain ⟨k₀, v₀⟩ := q
      by_cases hk : k₀ = k
      · subst hk; simp [mapSet]
      · have hk2 : ¬ k = k₀ := fun h => hk h.symm
        by_cases hm : k ∈ rest.map Prod.fst
        · simp [mapSet, hk, ih, hm, hk2]
        · simp [mapSet, hk, ih, hm, hk2]

theorem mapSet_of_not_mem {κ β : Type} [DecidableEq κ] {m : List (κ × β)} {k : κ}
    (v : β) (h : k ∉ m.map Prod.fst) : mapSet m k v = m ++ [(k, v)] := by
  induction m with
  | nil => rfl
  | cons q rest ih =>
      obtain ⟨k₀, v₀⟩ := q
      simp only [List.map_cons, List.mem_cons, not_or] at h
      obtain ⟨h1, h2⟩ := h
      simp only [mapSet]
      rw [if_neg (fun hh : k₀ = k => h1 (by simp [hh])), ih h2]
      simp

theorem mem_mapSet {κ β : Type} [DecidableEq κ] {m : List (κ × β)} {k : κ} {v : β}
    {q : κ × β} (h : q ∈ mapSet m k v) : q ∈ m ∨ q = (k, v) := by
  induction m with
  | nil => simpa [mapSet] using h
  | cons p rest ih =>
      obtain ⟨k₀, v₀⟩ := p
      by_cases hk : k₀ = k
      · subst hk
        rcases List.mem_cons.1 (by simpa [mapSet] using h) with h1 | h1
        · exact .inr (by simpa using h1)
        · exact .inl (List.mem_cons_of_mem _ h1)
      · rcases List.mem_cons.1 (by simpa [mapSet, hk] using h) with h1 | h1
        · exact .inl (by simp [h1])
        · rcases ih h1 with h2 | h2
          · exact .inl (List.mem_cons_of_mem _ h2)
          · exact .inr h2

theorem foldl_mapSet_mem {κ β : Type} [DecidableEq κ] :
    ∀ (pairs m : List (κ × β)) (q : κ × β),
      q ∈ pairs.foldl (fun acc p => mapSet acc p.1 p.2) m → q ∈ m ∨ q ∈ pairs
  | [], _, _, h => .inl h
  | p :: ps, m, q, h => by
      rcases foldl_mapSet_mem ps (mapSet m p.1 p.2) q h with h1 | h1
      · rcases mem_mapSet h1 with h2 | h2
        · exact .inl h2
        · exact .inr (by simp [h2])
      · exact .inr (List.mem_cons_of_mem _ h1)

theorem foldl_mapSet_keys_nodup {κ β : Type} [DecidableEq κ] :
    ∀ (pairs m : List (κ × β)), (m.map Prod.fst).Nodup →
      ((pairs.foldl (fun acc p => mapSet acc p.1 p.2) m).map Prod.fst).Nodup
  | [], _, hm => hm
  | p :: ps, m, hm => by
      refine foldl_mapSet_keys_nodup ps (mapSet m p.1 p.2) ?_
      rw [mapSet_keys]
      split
      · exact hm
      · next hmem =>
          exact hm.append (List.nodup_singleton _) (List.disjoint_singleton.2 hmem)

theorem foldl_mapSet_eq_append {κ β : Type} [DecidableEq κ] :
    ∀ (pairs m : List (κ × β)), ((m ++ pairs).map Prod.fst).Nodup →
      pairs.foldl (fun acc p => mapSet acc p.1 p.2) m = m ++ pairs
  | [], m, _ => by simp
  | p :: ps, m, h => by
      have hnotin : p.1 ∉ m.map Prod.fst := by
        intro hmem
        rw [List.map_append, List.nodup_append] at h
        exact h.2.2 hmem (by simp)
      rw [List.foldl_cons]
      have hstep : mapSet m p.1 p.2 = m ++ [p] := by
        rw [mapSet_of_not_mem _ hnotin]
      rw [hstep]
      have := foldl_mapSet_eq_append ps (m ++ [p])
        (by simpa using h)
      simpa using this

theorem jsMapOfList_keys_nodup {κ β : Type} [DecidableEq κ] (pairs : List (κ × β)) :
    ((jsMapOfList pairs).map Prod.fst).Nodup :=
  foldl_mapSet_keys_nodup pairs [] (by simp)

theorem jsMapOfList_eq_self {κ β : Type} [DecidableEq κ] {pairs : List (κ × β)}
    (h : (pairs.map Prod.fst).Nodup) : jsMapOfList pairs = pairs := by
  simpa using foldl_mapSet_eq_append pairs [] (by simpa using h)

theorem mem_jsMapOfList {κ β : Type} [DecidableEq κ] {pairs : List (κ × β)}
    {q : κ × β} (h : q ∈ jsMapOfList pairs) : q ∈ pairs := by
  rcases foldl_mapSet_mem pairs [] q h with h1 | h1
  · cases h1
  · exact h1

/-- The truncated hashes of a deduplicated commit list are pairwise
distinct: every surviving `Map` entry carries its key as its hash. -/
theorem sortAndDedup_hashes_nodup (l : List Commit) :
    ((sortAndDedup l).map (fun c => c.hash)).Nodup := by
  unfold sortAndDedup
  rw [List.map_map]
  have hkey : ∀ q ∈ jsMapOfList ((List.insertionSort commitLeDesc l).map
      (fun c => (c.hash, c))), ((fun c => c.hash) ∘ Prod.snd) q = Prod.fst q := by
    intro q hq
    obtain ⟨c, _, rfl⟩ := List.mem_map.1 (mem_jsMapOfList hq)
    rfl
  rw [List.map_congr_left hkey]
  exact jsMapOfList_keys_nodup _

/-- When the input hashes are already pairwise distinct, the `Map`
dedup is the identity and `sortAndDedup` is exactly the stable
descending sort. -/
theorem sortAndDedup_of_nodup {l : List Commit}
    (h : (l.map (fun c => c.hash)).Nodup) :
    sortAndDedup l = List.insertionSort commitLeDesc l := by
  unfold sortAndDedup
  have hperm : List.Perm ((List.insertionSort commitLeDesc l).map (fun c => c.hash))
      (l.map (fun c => c.hash)) := (List.perm_insertionSort _ l).map _
  have hkeys : ((List.insertionSort commitLeDesc l).map
      (fun c => (c.hash, c))).map Prod.fst =
      (List.insertionSort commitLeDesc l).map (fun c => c.hash) := by
    simp [List.map_map, Function.comp]
  rw [jsMapOfList_eq_self (by rw [hkeys]; exact hperm.nodup_iff.2 h)]
  rw [List.map_map]
  exact ((List.map_congr_left (fun a _ => rfl)).trans (List.map_id _))

/-- C3 counterexample: on three commits where the most recent and the
oldest share the truncated hash "aaa", `sortAndDedup` keeps the OLDEST
record (the JavaScript `Map` keeps the last value written for a key) at
the position of the first occurrence, so the most recent "aaa" commit
is lost and the result [ts 1, ts 5] is not sorted descending. -/
theorem c3_counterexample :
    sortAndDedup
        [⟨"aaa", "m1", "u", 10⟩, ⟨"bbb", "m2", "u", 5⟩, ⟨"aaa", "m3", "u", 1⟩] =
      [⟨"aaa", "m3", "u", 1⟩, ⟨"bbb", "m2", "u", 5⟩] ∧
    (sortAndDedup
        [⟨"aaa", "m1", "u", 10⟩, ⟨"bbb", "m2", "u", 5⟩, ⟨"aaa", "m3", "u", 1⟩]).map
        (fun c => c.timestamp) = [1, 5] ∧
    ¬ ((1 : Int) ≥ 5) ∧
    (⟨"aaa", "m1", "u", 10⟩ : Commit) ∉
      sortAndDedup
        [⟨"aaa", "m1", "u", 10⟩, ⟨"bbb", "m2", "u", 5⟩, ⟨"aaa", "m3", "u", 1⟩] := by
  refine ⟨by decide, by decide, by decide, by decide⟩

/-- C3 (amended): on every read path `sortAndDedup` produces a list
whose truncated hashes are pairwise distinct; when the input already
has pairwise-distinct truncated hashes the result is exactly the stable
descending-timestamp sort of the input (and hence sorted descending).
When distinct commits share a truncated hash the kept record is the
last — i.e. oldest — occurrence of the descending-sorted list, placed
at the position of the first occurrence (see the counterexample). -/
theorem c3_sortAndDedup_sorted_dedup (l : List Commit) :
    ((sortAndDedup l).map (fun c => c.hash)).Nodup ∧
    ((l.map (fun c => c.hash)).Nodup →
      sortAndDedup l = List.insertionSort commitLeDesc l ∧
      List.Sorted commitLeDesc (sortAndDedup l)) := by
  refine ⟨sortAndDedup_hashes_nodup l, fun h => ?_⟩
  have h1 := sortAndDedup_of_nodup h
  exact ⟨h1, h1 ▸ List.sorted_insertionSort commitLeDesc l⟩

theorem c3_sortAndDedup_sorted_dedup_witness :
    ((sortAndDedup [⟨"aaa", "m1", "u", 1⟩, ⟨"bbb", "m2", "u", 7⟩]).map
      (fun c => c.hash)).Nodup ∧
    (sortAndDedup [⟨"aaa", "m1", "u", 1⟩, ⟨"bbb", "m2", "u", 7⟩] =
      List.insertionSort commitLeDesc
        [⟨"aaa", "m1", "u", 1⟩, ⟨"bbb", "m2", "u", 7⟩] ∧
      List.Sorted commitLeDesc
        (sortAndDedup [⟨"aaa", "m1", "u", 1⟩, ⟨"bbb", "m2", "u", 7⟩])) :=
  ⟨(c3_sortAndDedup_sorted_dedup _).1,
    (c3_sortAndDedup_sorted_dedup _).2 (by decide)⟩

/-- C6 counterexample: `sortAndDedup` is not idempotent.  On the same
three commits as the C3 counterexample the first application returns
the unsorted list [ts 1, ts 5]; the second application re-sorts it to
[ts 5, ts 1], so applying twice differs from applying once. -/
theorem c6_counterexample :
    sortAndDedup
        [⟨"aaa", "m1", "u", 10⟩, ⟨"bbb", "m2", "u", 5⟩, ⟨"aaa", "m3", "u", 1⟩] =
      [⟨"aaa", "m3", "u", 1⟩, ⟨"bbb", "m2", "u", 5⟩] ∧
    sortAndDedup (sortAndDedup
        [⟨"aaa", "m1", "u", 10⟩, ⟨"bbb", "m2", "u", 5⟩, ⟨"aaa", "m3", "u", 1⟩]) =
      [⟨"bbb", "m2", "u", 5⟩, ⟨"aaa", "m3", "u", 1⟩] ∧
    sortAndDedup (sortAndDedup
        [⟨"aaa", "m1", "u", 10⟩, ⟨"bbb", "m2", "u", 5⟩, ⟨"aaa", "m3", "u", 1⟩]) ≠
      sortAndDedup
        [⟨"aaa", "m1", "u", 10⟩, ⟨"bbb", "m2", "u", 5⟩, ⟨"aaa", "m3", "u", 1⟩] := by
  refine ⟨by decide, by decide, by decide⟩

/-- C6 (amended): `sortAndDedup` is idempotent on every commit list
whose truncated hashes are pairwise distinct (in particular after one
dedup-preserving pass); with duplicated truncated hashes a second
application can differ from the first (see the counterexample). -/
theorem c6_sortAndDedup_idempotent_on_nodup {l : List Commit}
    (h : (l.map (fun c => c.hash)).Nodup) :
    sortAndDedup (sortAndDedup l) = sortAndDedup l := by
  have h1 := sortAndDedup_of_nodup h
  rw [h1]
  have hperm : List.Perm ((List.insertionSort commitLeDesc l).map (fun c => c.hash))
      (l.map (fun c => c.hash)) := (List.perm_insertionSort _ l).map _
  rw [sortAndDedup_of_nodup (hperm.nodup_iff.2 h)]
  exact (List.sorted_insertionSort commitLeDesc l).insertionSort_eq

theorem c6_sortAndDedup_idempotent_on_nodup_witness :
    sortAndDedup (sortAndDedup [⟨"aaa", "m1", "u", 1⟩, ⟨"bbb", "m2", "u", 7⟩]) =
      sortAndDedup [⟨"aaa", "m1", "u", 1⟩, ⟨"bbb", "m2", "u", 7⟩] :=
  c6_sortAndDedup_idempotent_on_nodup (by decide)

/-- JavaScript `Array.prototype.slice(0, e)`: a negative end counts
from the end of the array. -/
def jsSliceFrom0 {α : Type} (l : List α) (e : Int) : List α :=
  if 0 ≤ e then l.take e.toNat else l.take ((l.length : Int) + e).toNat

theorem jsSliceFrom0_subset {α : Type} (l : List α) (e : Int) :
    jsSliceFrom0 l e ⊆ l := by
  unfold jsSliceFrom0
  split <;> exact List.take_subset _ _

/-- The branch-limiting step of `GitHubService.getCommitsForRepo`
(src/services/GitHubService.ts:124-144): when the branch list exceeds
the cap, `branches.find(b => b === "main" || b === "master")` picks the
first branch named main or master (in LIST order, whichever of the two
comes first), all main/master entries are filtered out of the
remainder, and the remainder is `slice`d to fill the cap. -/
def sampleBranches (branches : List String) (maxBranches : Int) : List String :=
  if (branches.length : Int) > maxBranches then
    let mainBranch := branches.find? (fun b => b == "main" || b == "master")
    let otherBranches := branches.filter (fun b => b != "main" && b != "master")
    let kept := match mainBranch with
      | some b => [b]
      | none => []
    kept ++ jsSliceFrom0 otherBranches (maxBranches - (kept.length : Int))
  else branches

example : sampleBranches ["main", "feature-a", "feature-b"] 2 = ["main", "feature-a"] := by
  decide

example : sampleBranches ["master", "main", "x"] 2 = ["master", "x"] := by decide

/-- C4 counterexample: when both `master` and `main` exist and `master`
is listed first, the single `find` over the list retains `master`, not
`main` — the claim's "check main first, else master" rule predicts
`["main", "x"]` here. -/
theorem c4_counterexample :
    sampleBranches ["master", "main", "x"] 2 = ["master", "x"] ∧
    "main" ∉ sampleBranches ["master", "main", "x"] 2 ∧
    "master" ∈ sampleBranches ["master", "main", "x"] 2 := by
  refine ⟨by decide, by decide, by decide⟩

/-- C4 (amended): the sampling policy returns the branch list
unchanged when its length is at most the cap.  Otherwise, when a branch
named main or master exists, it keeps the FIRST such branch in list
order (whichever of the two the single `find` hits first, not `main`
preferentially): for a cap of at least 1 the result is exactly that
branch followed by the first `cap - 1` of the other (non-main/master)
branches in their original listing order — hence at most `cap` entries —
while for a cap of 0 the code exceeds the cap, returning that branch
followed by all but the last of the other branches (`slice(0, -1)`).
When neither main nor master is present the result is the first `cap`
branches in listing order.  The concrete example of the claim holds. -/
theorem c4_branch_sampling (branches : List String) (k : Nat) :
    (branches.length ≤ k → sampleBranches branches (k : Int) = branches) ∧
    (k < branches.length →
      (∀ b, branches.find? (fun x => x == "main" || x == "master") = some b →
        (1 ≤ k →
          sampleBranches branches (k : Int) =
            b :: (branches.filter
              (fun x => x != "main" && x != "master")).take (k - 1) ∧
          (sampleBranches branches (k : Int)).length ≤ k) ∧
        (k = 0 →
          sampleBranches branches (k : Int) =
            b :: (branches.filter
              (fun x => x != "main" && x != "master")).dropLast)) ∧
      (branches.find? (fun x => x == "main" || x == "master") = none →
        sampleBranches branches (k : Int) = branches.take k)) ∧
    sampleBranches ["main", "feature-a", "feature-b"] 2 = ["main", "feature-a"] := by
  refine ⟨?_, ?_, by decide⟩
  · intro h
    unfold sampleBranches
    rw [if_neg (by omega)]
  · intro hlen
    have hcond : (branches.length : Int) > (k : Int) := by omega
    constructor
    · intro b hfind
      constructor
      · intro hk
        unfold sampleBranches
        rw [if_pos hcond]
        simp only [hfind]
        have harg : (((k : Int) - (([b] : List String).length : Int))).toNat = k - 1 := by
          simp only [List.length_singleton]
          omega
        constructor
        · rw [jsSliceFrom0,
            if_pos (by simp only [List.length_singleton]; omega), harg]
          simp
        · rw [jsSliceFrom0,
            if_pos (by simp only [List.length_singleton]; omega), harg]
          have h2 := List.length_take_le (k - 1)
            (branches.filter (fun b => b != "main" && b != "master"))
          simp only [List.length_append, List.length_singleton]
          omega
      · intro hk0
        subst hk0
        unfold sampleBranches
        rw [if_pos hcond]
        simp only [hfind]
        rw [jsSliceFrom0, if_neg (by simp only [List.length_singleton]; omega)]
        have harg : (((branches.filter
            (fun b => b != "main" && b != "master")).length : Int) +
            ((((0 : Nat)) : Int) - (([b] : List String).length : Int))).toNat =
            (branches.filter (fun b => b != "main" && b != "master")).length - 1 := by
          simp only [List.length_singleton]
          omega
        rw [harg, ← List.dropLast_eq_take]
        simp
    · intro hfind
      unfold sampleBranches
      rw [if_pos hcond]
      simp only [hfind]
      have hall := List.find?_eq_none.1 hfind
      have hfilter : branches.filter (fun b => b != "main" && b != "master") = branches := by
        apply List.filter_eq_self.2
        intro a ha
        have := hall a ha
        simp only [Bool.or_eq_true, beq_iff_eq, not_or] at this
        simp [this.1, this.2]
      simp only [List.length_nil, List.nil_append, hfilter]
      rw [jsSliceFrom0, if_pos (by omega)]
      congr 1

theorem c4_branch_sampling_witness :
    sampleBranches ["solo"] ((3 : Nat) : Int) = ["solo"] ∧
    sampleBranches ["main", "feature-a", "feature-b"] ((2 : Nat) : Int) =
      "main" :: (["main", "feature-a", "feature-b"].filter
        (fun x => x != "main" && x != "master")).take 1 ∧
    (sampleBranches ["main", "feature-a", "feature-b"] ((2 : Nat) : Int)).length ≤ 2 := by
  have h0 := (c4_branch_sampling ["solo"] 3).1 (by decide)
  have h := (((c4_branch_sampling ["main", "feature-a", "feature-b"] 2).2.1
    (by decide)).1 "main" (by decide)).1 (by decide)
  exact ⟨h0, h.1, h.2⟩

/-- The inner loop of the commit merge in
`GitHubService.getCommitsForRepo` (src/services/GitHubService.ts:169-175):
one branch's fetched commits are appended to the accumulator, skipping
any commit whose full sha was already seen.  The source keeps a
`Set<string>` `processedCommits` alongside `allCommits`; the two are
always updated together, so set membership equals existence of the sha
in the accumulator, which is how we model it. -/
def mergeStep (acc : List RawCommit) : List RawCommit → List RawCommit
  | [] => acc
  | c :: cs =>
      if acc.any (fun d => d.sha == c.sha) then mergeStep acc cs
      else mergeStep (acc ++ [c]) cs

/-- The outer per-branch loop of the merge
(src/services/GitHubService.ts:158-184): each entry is one sampled
branch's fetch result, `none` standing for a fetch that threw and was
skipped by the `catch`. -/
def mergeBranchCommits : List (Option (List RawCommit)) → List RawCommit :=
  mergeFold []
where
  mergeFold (acc : List RawCommit) : List (Option (List RawCommit)) → List RawCommit
    | [] => acc
    | none :: rs => mergeFold acc rs
    | some cs :: rs => mergeFold (mergeStep acc cs) rs

/-- `GitHubService.getCommitsForRepo`
(src/services/GitHubService.ts:110-187) after branch listing: sample
the branches, fetch each sampled branch (the oracle `fetch` returns
`none` for a failed call), and merge with full-sha dedup. -/
def getCommitsForRepo (branches : List String)
    (fetch : String → Option (List RawCommit)) (maxBranches : Int) : List RawCommit :=
  mergeBranchCommits ((sampleBranches branches maxBranches).map fetch)

/-- The commits of the `some` results, in traversal order. -/
def flattenSome (results : List (Option (List RawCommit))) : List RawCommit :=
  (results.filterMap id).flatten

theorem any_sha_iff (a : List RawCommit) (s : String) :
    (a.any (fun d => d.sha == s) = true) ↔ s ∈ a.map (fun c => c.sha) := by
  simp only [List.any_eq_true, beq_iff_eq, List.mem_map]

theorem mem_shas_mergeStep : ∀ (cs acc : List RawCommit) (s : String),
    s ∈ (mergeStep acc cs).map (fun c => c.sha) ↔
      s ∈ acc.map (fun c => c.sha) ∨ s ∈ cs.map (fun c => c.sha)
  | [], acc, s => by simp [mergeStep]
  | c :: cs, acc, s => by
      by_cases h : acc.any (fun d => d.sha == c.sha) = true
      · rw [mergeStep, if_pos h, mem_shas_mergeStep cs acc s]
        have hc : c.sha ∈ acc.map (fun x => x.sha) := (any_sha_iff _ _).1 h
        simp only [List.map_cons, List.mem_cons]
        constructor
        · rintro (h1 | h1)
          · exact .inl h1
          · exact .inr (.inr h1)
        · rintro (h1 | rfl | h1)
          · exact .inl h1
          · exact .inl hc
          · exact .inr h1
      · rw [mergeStep, if_neg h, mem_shas_mergeStep cs _ s]
        simp only [List.map_append, List.mem_append, List.map_cons, List.map_nil,
          List.mem_cons, List.mem_singleton, List.not_mem_nil, or_false]
        tauto

theorem shas_nodup_mergeStep : ∀ (cs acc : List RawCommit),
    (acc.map (fun c => c.sha)).Nodup → ((mergeStep acc cs).map (fun c => c.sha)).Nodup
  | [], _, h => h
  | c :: cs, acc, h => by
      by_cases hany : acc.any (fun d => d.sha == c.sha) = true
      · rw [mergeStep, if_pos hany]
        exact shas_nodup_mergeStep cs acc h
      · rw [mergeStep, if_neg hany]
        refine shas_nodup_mergeStep cs _ ?_
        have hnc : c.sha ∉ acc.map (fun x => x.sha) := fun hmem =>
          hany ((any_sha_iff _ _).2 hmem)
        simpa using h.append (List.nodup_singleton _) (List.disjoint_singleton.2 hnc)

theorem find?_mergeStep : ∀ (cs acc : List RawCommit) (s : String),
    (mergeStep acc cs).find? (fun d => d.sha == s) =
      (acc.find? (fun d => d.sha == s)).or (cs.find? (fun d => d.sha == s))
  | [], acc, s => by simp only [mergeStep, List.find?_nil, Option.or_none]
  | c :: cs, acc, s => by
      by_cases hany : acc.any (fun d => d.sha == c.sha) = true
      · rw [mergeStep, if_pos hany, find?_mergeStep cs acc s]
        by_cases hcs : (c.sha == s) = true
        · have hceq : c.sha = s := by simpa using hcs
          have hs : s ∈ acc.map (fun x => x.sha) := hceq ▸ (any_sha_iff _ _).1 hany
          obtain ⟨x, hx, hxs⟩ := List.mem_map.1 hs
          have h1 : (acc.find? (fun d => d.sha == s)).isSome :=
            List.find?_isSome.2 ⟨x, hx, by simpa using hxs⟩
          obtain ⟨y, hy⟩ := Option.isSome_iff_exists.1 h1
          rw [hy]
          simp [Option.or]
        · rw [@List.find?_cons_of_neg _ (fun d => d.sha == s) c cs hcs]
      · rw [mergeStep, if_neg hany, find?_mergeStep cs _ s, List.find?_append]
        by_cases hcs : (c.sha == s) = true
        · rw [@List.find?_cons_of_pos _ (fun d => d.sha == s) c cs hcs,
            @List.find?_cons_of_pos _ (fun d => d.sha == s) c [] hcs]
          cases acc.find? (fun d => d.sha == s) <;> simp [Option.or]
        · rw [@List.find?_cons_of_neg _ (fun d => d.sha == s) c cs hcs,
            @List.find?_cons_of_neg _ (fun d => d.sha == s) c [] hcs,
            List.find?_nil]
          cases acc.find? (fun d => d.sha == s) <;> simp [Option.or]

theorem shas_nodup_mergeFold :
    ∀ (rs : List (Option (List RawCommit))) (acc : List RawCommit),
      (acc.map (fun c => c.sha)).Nodup →
      ((mergeBranchCommits.mergeFold acc rs).map (fun c => c.sha)).Nodup
  | [], _, h => h
  | none :: rs, acc, h => shas_nodup_mergeFold rs acc h
  | some cs :: rs, acc, h => shas_nodup_mergeFold rs _ (shas_nodup_mergeStep cs acc h)

theorem mem_shas_mergeFold :
    ∀ (rs : List (Option (List RawCommit))) (acc : List RawCommit) (s : String),
      s ∈ (mergeBranchCommits.mergeFold acc rs).map (fun c => c.sha) ↔
        s ∈ acc.map (fun c => c.sha) ∨
        ∃ cs, some cs ∈ rs ∧ s ∈ cs.map (fun c => c.sha)
  | [], acc, s => by simp [mergeBranchCommits.mergeFold]
  | none :: rs, acc, s => by
      show s ∈ (mergeBranchCommits.mergeFold acc rs).map (fun c => c.sha) ↔ _
      rw [mem_shas_mergeFold rs acc s]
      simp
  | some cs :: rs, acc, s => by
      show s ∈ (mergeBranchCommits.mergeFold (mergeStep acc cs) rs).map
        (fun c => c.sha) ↔ _
      rw [mem_shas_mergeFold rs (mergeStep acc cs) s, mem_shas_mergeStep cs acc s]
      constructor
      · rintro ((h | h) | ⟨cs', hmem, hs⟩)
        · exact .inl h
        · exact .inr ⟨cs, List.mem_cons_self _ _, h⟩
        · exact .inr ⟨cs', List.mem_cons_of_mem _ hmem, hs⟩
      · rintro (h | ⟨cs', hmem, hs⟩)
        · exact .inl (.inl h)
        · rcases List.mem_cons.1 hmem with heq | hmem2
          · injection heq with heq
            subst heq
            exact .inl (.inr hs)
          · exact .inr ⟨cs', hmem2, hs⟩

theorem find?_mergeFold :
    ∀ (rs : List (Option (List RawCommit))) (acc : List RawCommit) (s : String),
      (mergeBranchCommits.mergeFold acc rs).find? (fun d => d.sha == s) =
        (acc.find? (fun d => d.sha == s)).or
          ((flattenSome rs).find? (fun d => d.sha == s))
  | [], acc, s => by
      simp only [mergeBranchCommits.mergeFold, flattenSome, List.filterMap_nil,
        List.flatten_nil, List.find?_nil, Option.or_none]
  | none :: rs, acc, s => by
      show (mergeBranchCommits.mergeFold acc rs).find? _ = _
      rw [find?_mergeFold rs acc s]
      have h : flattenSome (none :: rs) = flattenSome rs := by
        simp [flattenSome]
      rw [h]
  | some cs :: rs, acc, s => by
      show (mergeBranchCommits.mergeFold (mergeStep acc cs) rs).find? _ = _
      rw [find?_mergeFold rs _ s, find?_mergeStep cs acc s]
      have h : flattenSome (some cs :: rs) = cs ++ flattenSome rs := by
        simp [flattenSome]
      rw [h, List.find?_append]
      cases acc.find? (fun d => d.sha == s) <;> simp [Option.or]

/-- C2: the merged output of `getCommitsForRepo` over the sampled
branches contains each commit exactly once, keyed by the FULL sha:
the sha list of the output has no duplicates, a sha appears in the
output iff some sampled branch's (successful) fetch returned it —
so a commit returned by two or more sampled branches appears exactly
once — and the record kept for each sha is the first occurrence in
branch-traversal order (first-seen-wins). -/
theorem c2_merge_dedups_by_full_sha (branches : List String)
    (fetch : String → Option (List RawCommit)) (maxB : Int) :
    ((getCommitsForRepo branches fetch maxB).map (fun c => c.sha)).Nodup ∧
    (∀ s, s ∈ (getCommitsForRepo branches fetch maxB).map (fun c => c.sha) ↔
       ∃ b ∈ sampleBranches branches maxB, ∃ cs, fetch b = some cs ∧
         s ∈ cs.map (fun c => c.sha)) ∧
    (∀ s, s ∈ (getCommitsForRepo branches fetch maxB).map (fun c => c.sha) →
       ((getCommitsForRepo branches fetch maxB).map (fun c => c.sha)).count s = 1) ∧
    (∀ s, (getCommitsForRepo branches fetch maxB).find? (fun d => d.sha == s) =
       (flattenSome ((sampleBranches branches maxB).map fetch)).find?
         (fun d => d.sha == s)) := by
  have hnodup := shas_nodup_mergeFold ((sampleBranches branches maxB).map fetch) []
    (by simp)
  refine ⟨hnodup, ?_, ?_, ?_⟩
  · intro s
    have h := mem_shas_mergeFold ((sampleBranches branches maxB).map fetch) [] s
    simp only [List.map_nil, List.not_mem_nil, false_or] at h
    rw [show getCommitsForRepo branches fetch maxB =
      mergeBranchCommits.mergeFold [] ((sampleBranches branches maxB).map fetch)
      from rfl, h]
    constructor
    · rintro ⟨cs, hmem, hs⟩
      obtain ⟨b, hb, hfb⟩ := List.mem_map.1 hmem
      exact ⟨b, hb, cs, hfb, hs⟩
    · rintro ⟨b, hb, cs, hfb, hs⟩
      exact ⟨cs, List.mem_map.2 ⟨b, hb, hfb⟩, hs⟩
  · intro s hs
    exact List.count_eq_one_of_mem hnodup hs
  · intro s
    have h := find?_mergeFold ((sampleBranches branches maxB).map fetch) [] s
    simpa [List.find?_nil, Option.or] using h

theorem c2_merge_dedups_by_full_sha_witness :
    ((getCommitsForRepo ["main", "dev"]
        (fun b =>
          if b == "main" then some [⟨"sha1", "m", ⟨"a", none⟩⟩]
          else if b == "dev" then
            some [⟨"sha1", "m", ⟨"a", none⟩⟩, ⟨"sha2", "m2", ⟨"a", none⟩⟩]
          else none)
        10).map (fun c => c.sha)).count "sha1" = 1 :=
  (c2_merge_dedups_by_full_sha ["main", "dev"]
      (fun b =>
        if b == "main" then some [⟨"sha1", "m", ⟨"a", none⟩⟩]
        else if b == "dev" then
          some [⟨"sha1", "m", ⟨"a", none⟩⟩, ⟨"sha2", "m2", ⟨"a", none⟩⟩]
        else none)
      10).2.2.1 "sha1" (by decide)

/-- The repository names that the processing loop appends, in order of
first contribution, given the names already present (`seen`). -/
def newRepos (cfg : EODConfig) (seen : List String) : List GitHubEvent → List String
  | [] => []
  | e :: es =>
      match e.payload.commits with
      | none => newRepos cfg seen es
      | some cs =>
          if userCommitsOf cfg e cs = [] then newRepos cfg seen es
          else if e.repo.name ∈ seen then newRepos cfg seen es
          else e.repo.name :: newRepos cfg (seen ++ [e.repo.name]) es

theorem addToRepo_repos (contribs : List Contribution) (name : String)
    (cs : List Commit) :
    (addToRepo contribs name cs).map (fun c => c.repo) =
      if name ∈ contribs.map (fun c => c.repo) then contribs.map (fun c => c.repo)
      else contribs.map (fun c => c.repo) ++ [name] := by
  induction contribs with
  | nil => simp [addToRepo]
  | cons c rest ih =>
      by_cases hr : c.repo = name
      · simp [addToRepo, hr]
      · have hr2 : ¬ name = c.repo := fun h => hr h.symm
        by_cases hm : name ∈ rest.map (fun c => c.repo)
        · simp [addToRepo, hr, hr2, hm, ih]
        · simp [addToRepo, hr, hr2, hm, ih]

theorem processLoop_repos (cfg : EODConfig) :
    ∀ (L : List GitHubEvent) (contribs : List Contribution),
      (processLoop cfg contribs L).map (fun c => c.repo) =
        contribs.map (fun c => c.repo) ++
          newRepos cfg (contribs.map (fun c => c.repo)) L
  | [], contribs => by simp [processLoop, newRepos]
  | e :: es, contribs => by
      cases hc : e.payload.commits with
      | none =>
          simp only [processLoop, newRepos, hc]
          exact processLoop_repos cfg es contribs
      | some cs =>
          simp only [processLoop, newRepos, hc]
          by_cases hu : userCommitsOf cfg e cs = []
          · simp only [if_pos hu]
            exact processLoop_repos cfg es contribs
          · simp only [if_neg hu]
            by_cases hm : e.repo.name ∈ contribs.map (fun c => c.repo)
            · rw [if_pos hm, processLoop_repos cfg es _, addToRepo_repos,
                if_pos hm]
            · rw [if_neg hm, processLoop_repos cfg es _, addToRepo_repos,
                if_neg hm]
              simp

theorem newRepos_nodup (cfg : EODConfig) :
    ∀ (L : List GitHubEvent) (seen : List String),
      seen.Nodup → (seen ++ newRepos cfg seen L).Nodup
  | [], seen, h => by simp only [newRepos, List.append_nil]; exact h
  | e :: es, seen, h => by
      cases hc : e.payload.commits with
      | none =>
          simp only [newRepos, hc]
          exact newRepos_nodup cfg es seen h
      | some cs =>
          simp only [newRepos, hc]
          by_cases hu : userCommitsOf cfg e cs = []
          · simp only [if_pos hu]
            exact newRepos_nodup cfg es seen h
          · simp only [if_neg hu]
            by_cases hm : e.repo.name ∈ seen
            · simp only [if_pos hm]
              exact newRepos_nodup cfg es seen h
            · simp only [if_neg hm]
              have h2 : (seen ++ [e.repo.name]).Nodup :=
                h.append (List.nodup_singleton _) (List.disjoint_singleton.2 hm)
              have := newRepos_nodup cfg es (seen ++ [e.repo.name]) h2
              simpa [List.append_assoc] using this

/-- main.ts (both copies, lines 220 and 267 of src/main.ts): the
contribution list handed to the Reporter is exactly the output of
`EODProcessor.process`; nothing between the two re-orders it. -/
def contributionsForReporter (cfg : EODConfig) (events : List GitHubEvent) :
    List Contribution :=
  process cfg events

/-- C7 counterexample: with two qualifying events for repos "b" then
"a", the list handed to the Reporter keeps the first-seen order
["b", "a"]; a case-sensitive lexicographic re-sort by repo name would
have produced ["a", "b"], so no such re-sort happens on the main path
(src/main.ts has no sort between process and the Reporter). -/
theorem c7_counterexample :
    (contributionsForReporter ⟨[], ["alice"], 0⟩
        [⟨0, "PushEvent", ⟨"b"⟩, ⟨some [⟨"1111111aaa", "m1", ⟨"alice", none⟩⟩]⟩, none⟩,
         ⟨0, "PushEvent", ⟨"a"⟩, ⟨some [⟨"2222222bbb", "m2", ⟨"alice", none⟩⟩]⟩, none⟩]).map
      (fun c => c.repo) = ["b", "a"] ∧
    (["b", "a"] : List String) ≠ ["a", "b"] := by
  refine ⟨by decide, by decide⟩

/-- C7 (amended): the contribution list handed to the Reporter contains
one Contribution per distinct repo name (the repo names are pairwise
distinct), built in first-seen order during filtering, and it reaches
the Reporter in that first-seen order: the main path performs no
re-sort by repo name.  (Only the legacy duplicate processor inside the
src/src tree sorts its own output, via localeCompare.) -/
theorem c7_one_contribution_per_repo_first_seen (cfg : EODConfig)
    (events : List GitHubEvent) :
    (contributionsForReporter cfg events).map (fun c => c.repo) =
      newRepos cfg [] (events.filter (eventFilter cfg)) ∧
    ((contributionsForReporter cfg events).map (fun c => c.repo)).Nodup := by
  constructor
  · have h := processLoop_repos cfg (events.filter (eventFilter cfg)) []
    simpa [contributionsForReporter, process] using h
  · have h := newRepos_nodup cfg (events.filter (eventFilter cfg)) [] List.nodup_nil
    have h2 := processLoop_repos cfg (events.filter (eventFilter cfg)) []
    simp only [List.map_nil, List.nil_append] at h h2
    show ((processLoop cfg [] (events.filter (eventFilter cfg))).map
      (fun c => c.repo)).Nodup
    rw [h2]
    exact h

theorem mem_addToRepo {contribs : List Contribution} {name : String}
    {cs : List Commit} {x : Contribution} (h : x ∈ addToRepo contribs name cs) :
    x ∈ contribs ∨ (∃ y ∈ contribs, x = ⟨y.repo, y.commits ++ cs⟩) ∨
      x = ⟨name, cs⟩ := by
  induction contribs with
  | nil => exact .inr (.inr (by simpa [addToRepo] using h))
  | cons c rest ih =>
      by_cases hr : c.repo = name
      · rcases List.mem_cons.1 (by simpa [addToRepo, hr] using h) with h1 | h1
        · exact .inr (.inl ⟨c, List.mem_cons_self _ _, by rw [hr]; exact h1⟩)
        · exact .inl (List.mem_cons_of_mem _ h1)
      · rcases List.mem_cons.1 (by simpa [addToRepo, hr] using h) with h1 | h1
        · exact .inl (by simp [h1])
        · rcases ih h1 with h2 | ⟨y, hy, h2⟩ | h2
          · exact .inl (List.mem_cons_of_mem _ h2)
          · exact .inr (.inl ⟨y, List.mem_cons_of_mem _ hy, h2⟩)
          · exact .inr (.inr h2)

theorem processLoop_commits_ne_nil (cfg : EODConfig) :
    ∀ (L : List GitHubEvent) (contribs : List Contribution),
      (∀ x ∈ contribs, x.commits ≠ []) →
      ∀ c ∈ processLoop cfg contribs L, c.commits ≠ []
  | [], _, hinv, c, hc => hinv c hc
  | e :: es, contribs, hinv, c, hc => by
      revert hc
      cases hpc : e.payload.commits with
      | none =>
          intro hc
          exact processLoop_commits_ne_nil cfg es contribs hinv c
            (by simpa [processLoop, hpc] using hc)
      | some cs =>
          intro hc
          by_cases hu : userCommitsOf cfg e cs = []
          · exact processLoop_commits_ne_nil cfg es contribs hinv c
              (by simpa [processLoop, hpc, hu] using hc)
          · refine processLoop_commits_ne_nil cfg es
              (addToRepo contribs e.repo.name (userCommitsOf cfg e cs)) ?_ c
              (by simpa [processLoop, hpc, hu] using hc)
            intro x hx
            rcases mem_addToRepo hx with h1 | ⟨y, _, h1⟩ | h1
            · exact hinv x h1
            · subst h1
              simp only [ne_eq, List.append_eq_nil, not_and]
              intro _
              exact hu
            · subst h1
              simpa using hu

/-- C8: every Contribution returned by `EODProcessor.process` carries a
non-empty commit list: an event whose commits all fail the per-commit
author filter is skipped before any Contribution entry is created
(src/services/EODProcessor.ts:68), so no empty Contribution is ever
emitted. -/
theorem c8_no_empty_contribution (cfg : EODConfig) (events : List GitHubEvent) :
    ∀ c ∈ process cfg events, c.commits ≠ [] :=
  processLoop_commits_ne_nil cfg (events.filter (eventFilter cfg)) []
    (fun x hx => absurd hx (List.not_mem_nil x))

theorem c8_no_empty_contribution_witness :
    (⟨"b", [⟨"1111111", "m1", "alice", 0⟩]⟩ : Contribution).commits ≠ [] :=
  c8_no_empty_contribution ⟨[], ["alice"], 0⟩
    [⟨0, "PushEvent", ⟨"b"⟩, ⟨some [⟨"1111111aaa", "m1", ⟨"alice", none⟩⟩]⟩, none⟩]
    ⟨"b", [⟨"1111111", "m1", "alice", 0⟩]⟩ (by decide)

/-- `r.includes("/")`, over the string's character list. -/
def hasSlash (r : String) : Bool := r.data.contains '/'

/-- `isValidFullRepo` (src/main.ts:104-105):
`r.includes("/") && r.split("/").length === 2`.  A string splits on
"/" into exactly two parts iff it contains exactly one slash, so the
second conjunct is embedded as a character count. -/
def isValidFullRepo (r : String) : Bool :=
  hasSlash r && (r.data.count '/' == 1)

/-- `Set.prototype.add` on an insertion-ordered string set. -/
def jsSetAdd (s : List String) (x : String) : List String :=
  if x ∈ s then s else s ++ [x]

/-- A commit as returned by the commits endpoint, flattened
(src/main.ts:148-159 reads `c.sha`, `c.commit.message`,
`c.commit.author.name`, `c.commit.author.email`, `c.author?.login`). -/
structure ApiCommit where
  sha : String
  message : String
  authorName : String
  authorEmail : String
  authorLogin : Option String
deriving DecidableEq, Repr

/-- Oracle for the remote API as consumed by `fetchEvents`
(src/main.ts:85-179).  `repoCommits r` is the merged result of
`getCommitsForRepo` for repository `r` (an empty list covers both an
empty window and a failed fetch, which the code treats alike: no event
is synthesized); `userPublicEvents u` is the result of
`getUserPublicEvents(u)` (empty on failure, which is skipped). -/
structure Api where
  orgRepos : String → List String
  userRepos : List String
  repoCommits : String → List ApiCommit
  userPublicEvents : String → List GitHubEvent

/-- The repository working set of `fetchEvents` (src/main.ts:102-121):
a JS `Set` filled from the organization's repos (when configured), the
account's repos, and the explicitly configured repos that pass the
full-name validation. -/
def reposToFetch (api : Api) (targetRepos : List String) (org : Option String) :
    List String :=
  ((match org with
    | some o => api.orgRepos o
    | none => []) ++ api.userRepos ++ targetRepos.filter isValidFullRepo).foldl
    jsSetAdd []

/-- The PushEvent synthesized from a repository's aggregated commits
(src/main.ts:143-160): `created_at` is `sinceISO`, the start of the
target day. -/
def eventOfRepoCommits (repo : String) (d : Int) (cs : List ApiCommit) : GitHubEvent :=
  { created_at := dayStart d
    type := "PushEvent"
    repo := ⟨repo⟩
    payload := ⟨some (cs.map (fun c =>
      ⟨c.sha, c.message, ⟨c.authorName, some c.authorEmail⟩⟩))⟩
    actor := match cs with
      | [] => none
      | c :: _ => c.authorLogin.map (fun l => ⟨l⟩) }

/-- `fetchEvents` (src/main.ts:85-179): one synthesized PushEvent per
repository with a non-empty commit window, then the public events of
each target user.  The first component is the log of network calls
made, in order. -/
def fetchEvents (api : Api) (targetUsers targetRepos : List String)
    (org : Option String) (d : Int) : List String × List GitHubEvent :=
  ((match org with
     | some o => ["getOrgRepos " ++ o]
     | none => []) ++ ["getUserRepos"] ++
     (reposToFetch api targetRepos org).map (fun r => "getCommitsForRepo " ++ r) ++
     targetUsers.map (fun u => "getUserPublicEvents " ++ u),
   (reposToFetch api targetRepos org).filterMap (fun r =>
     if (api.repoCommits r).isEmpty then none
     else some (eventOfRepoCommits r d (api.repoCommits r))) ++
   (targetUsers.map api.userPublicEvents).flatten)

/-- The configuration slice of `AppConfig` used by `main`
(src/types.ts / src/main.ts:69-82). -/
structure AppConfig where
  token : String
  targetUsers : List String
  targetRepos : List String
  organization : Option String
  date : Int
deriving Repr

/-- The short-repo-name resolution at the top of `main`
(src/main.ts:184-196): if some configured repo has no "/" and no
organization is set, an error is thrown; otherwise short names are
expanded to `org/name`. -/
def resolveTargetRepos (org : Option String) (repos : List String) :
    Except String (List String) :=
  if repos.any (fun r => !(hasSlash r)) then
    match org with
    | none => .error "You used short repo names, but GITHUB_ORG is not set. Please set it in .env or use full repo names."
    | some o => .ok (repos.map (fun r => if hasSlash r then r else o ++ "/" ++ r))
  else .ok repos

/-- `main` (src/main.ts:181-271) up to the Reporter hand-off: resolve
the configured repo names, fetch events, process them.  The first
component is the network-call log; the resolution error path performs
no network call at all. -/
def mainRun (cfg : AppConfig) (api : Api) :
    List String × Except String (List Contribution) :=
  match resolveTargetRepos cfg.organization cfg.targetRepos with
  | .error e => ([], .error e)
  | .ok repos =>
      ((fetchEvents api cfg.targetUsers repos cfg.organization cfg.date).1,
       .ok (process ⟨repos, cfg.targetUsers, cfg.date⟩
         (fetchEvents api cfg.targetUsers repos cfg.organization cfg.date).2))

/-- `main().catch` (src/main.ts:273-276): a thrown error yields exit
code 1, otherwise 0. -/
def exitCode (cfg : AppConfig) (api : Api) : Nat :=
  match (mainRun cfg api).2 with
  | .error _ => 1
  | .ok _ => 0

/-- C9: if some configured target repo has no "/" separator, then with
no organization configured the run fails fatally — `mainRun` returns
the error with an EMPTY network-call log (the throw happens before any
network call) and the exit code is 1, for every API oracle — and with
an organization configured the resolution instead expands short names
to `org/name`. -/
theorem c9_short_repo_fatal_before_network (cfg : AppConfig) (api : Api)
    (h : ∃ r ∈ cfg.targetRepos, hasSlash r = false) :
    (cfg.organization = none →
      mainRun cfg api = ([], .error "You used short repo names, but GITHUB_ORG is not set. Please set it in .env or use full repo names.") ∧
      exitCode cfg api = 1) ∧
    (∀ o, cfg.organization = some o →
      resolveTargetRepos cfg.organization cfg.targetRepos =
        .ok (cfg.targetRepos.map (fun r => if hasSlash r then r else o ++ "/" ++ r))) := by
  have hany : cfg.targetRepos.any (fun r => !(hasSlash r)) = true := by
    obtain ⟨r, hr, hc⟩ := h
    exact List.any_eq_true.2 ⟨r, hr, by simp [hc]⟩
  constructor
  · intro hnone
    have herr : resolveTargetRepos cfg.organization cfg.targetRepos =
        .error "You used short repo names, but GITHUB_ORG is not set. Please set it in .env or use full repo names." := by
      simp [resolveTargetRepos, hany, hnone]
    exact ⟨by simp [mainRun, herr], by simp [exitCode, mainRun, herr]⟩
  · intro o ho
    simp [resolveTargetRepos, hany, ho]

theorem c9_short_repo_fatal_before_network_witness :
    mainRun ⟨"tok", [], ["myrepo"], none, 0⟩ ⟨fun _ => [], [], fun _ => [], fun _ => []⟩ =
      ([], .error "You used short repo names, but GITHUB_ORG is not set. Please set it in .env or use full repo names.") ∧
    exitCode ⟨"tok", [], ["myrepo"], none, 0⟩ ⟨fun _ => [], [], fun _ => [], fun _ => []⟩ = 1 :=
  (c9_short_repo_fatal_before_network ⟨"tok", [], ["myrepo"], none, 0⟩
      ⟨fun _ => [], [], fun _ => [], fun _ => []⟩
      ⟨"myrepo", by decide, by decide⟩).1 rfl

theorem mem_commits_addToRepo {contribs : List Contribution} {name : String}
    {cs : List Commit} {x : Contribution} {c : Commit}
    (hx : x ∈ addToRepo contribs name cs) (hc : c ∈ x.commits) :
    (∃ y ∈ contribs, c ∈ y.commits) ∨ c ∈ cs := by
  rcases mem_addToRepo hx with h1 | ⟨y, hy, h1⟩ | h1
  · exact .inl ⟨x, h1, hc⟩
  · subst h1
    rcases List.mem_append.1 hc with h2 | h2
    · exact .inl ⟨y, hy, h2⟩
    · exact .inr h2
  · subst h1
    exact .inr hc

theorem processLoop_commit_provenance (cfg : EODConfig) :
    ∀ (L : List GitHubEvent) (contribs : List Contribution)
      (con : Contribution) (c : Commit),
      con ∈ processLoop cfg contribs L → c ∈ con.commits →
      (∃ con₀ ∈ contribs, c ∈ con₀.commits) ∨
      (∃ e ∈ L, ∃ cs, e.payload.commits = some cs ∧ ∃ rc ∈ cs, c = mkCommit e rc)
  | [], _, con, c, hcon, hc => .inl ⟨con, hcon, hc⟩
  | e :: es, contribs, con, c, hcon, hc => by
      cases hpc : e.payload.commits with
      | none =>
          rcases processLoop_commit_provenance cfg es contribs con c
              (by simpa [processLoop, hpc] using hcon) hc with h | ⟨e', he', rest⟩
          · exact .inl h
          · exact .inr ⟨e', List.mem_cons_of_mem _ he', rest⟩
      | some cs =>
          by_cases hu : userCommitsOf cfg e cs = []
          · rcases processLoop_commit_provenance cfg es contribs con c
                (by simpa [processLoop, hpc, hu] using hcon) hc with h | ⟨e', he', rest⟩
            · exact .inl h
            · exact .inr ⟨e', List.mem_cons_of_mem _ he', rest⟩
          · rcases processLoop_commit_provenance cfg es
                (addToRepo contribs e.repo.name (userCommitsOf cfg e cs)) con c
                (by simpa [processLoop, hpc, hu] using hcon) hc with h | ⟨e', he', rest⟩
            · obtain ⟨x, hx, hcx⟩ := h
              rcases mem_commits_addToRepo hx hcx with h2 | h2
              · exact .inl h2
              · right
                refine ⟨e, List.mem_cons_self _ _, cs, hpc, ?_⟩
                obtain ⟨rc, hrc, rfl⟩ := List.mem_map.1 h2
                exact ⟨rc, (List.mem_filter.1 hrc).1, rfl⟩
            · exact .inr ⟨e', List.mem_cons_of_mem _ he', rest⟩

theorem process_commit_provenance (cfg : EODConfig) (events : List GitHubEvent)
    (con : Contribution) (c : Commit) (hcon : con ∈ process cfg events)
    (hc : c ∈ con.commits) :
    ∃ e ∈ events, ∃ cs, e.payload.commits = some cs ∧
      ∃ rc ∈ cs, c = mkCommit e rc := by
  rcases processLoop_commit_provenance cfg (events.filter (eventFilter cfg)) []
      con c hcon hc with ⟨x, hx, _⟩ | ⟨e, he, rest⟩
  · cases hx
  · exact ⟨e, List.mem_of_mem_filter he, rest⟩

theorem sorted_of_const_timestamp (t : Int) :
    ∀ (l : List Commit), (∀ c ∈ l, c.timestamp = t) →
      List.Sorted commitLeDesc l
  | [], _ => List.sorted_nil
  | c :: cs, h => by
      refine List.Pairwise.cons ?_
        (sorted_of_const_timestamp t cs fun x hx => h x (List.mem_cons_of_mem _ hx))
      intro y hy
      show y.timestamp ≤ c.timestamp
      rw [h y (List.mem_cons_of_mem _ hy), h c (List.mem_cons_self _ _)]

theorem fetchEvents_created_at (api : Api) (tu repos : List String)
    (org : Option String) (d : Int)
    (huser : ∀ u ∈ tu, api.userPublicEvents u = []) :
    ∀ e ∈ (fetchEvents api tu repos org d).2, e.created_at = dayStart d := by
  intro e he
  rcases List.mem_append.1 he with h1 | h1
  · obtain ⟨r, _, hsome⟩ := List.mem_filterMap.1 h1
    by_cases hemp : (api.repoCommits r).isEmpty
    · rw [if_pos hemp] at hsome
      cases hsome
    · rw [if_neg hemp] at hsome
      injection hsome with hsome
      rw [← hsome]
      rfl
  · obtain ⟨l, hl, hel⟩ := List.mem_flatten.1 h1
    obtain ⟨u, hu, hlu⟩ := List.mem_map.1 hl
    rw [← hlu, huser u hu] at hel
    cases hel

set_option maxHeartbeats 1600000 in
/-- C10: (i) every Commit produced by `process` comes from some event
via `mkCommit`: its timestamp is the enclosing event's `created_at`
(not the commit's own time, which the conversion never reads) and its
hash is the first seven characters of the full sha; (ii) on the
commit-aggregation path — runs in which the user-event fetches return
nothing, so every event is a PushEvent synthesized by `fetchEvents`
with `created_at = startOfDay(date)` — every commit of every resulting
Contribution carries that same start-of-day timestamp, and the stable
descending-timestamp sort used by the Reporter leaves the commit list
unchanged. -/
theorem c10_event_timestamp_and_noop_sort :
    (∀ (cfg : EODConfig) (events : List GitHubEvent) (con : Contribution)
       (c : Commit), con ∈ process cfg events → c ∈ con.commits →
       ∃ e ∈ events, ∃ cs, e.payload.commits = some cs ∧
         ∃ rc ∈ cs, c = mkCommit e rc ∧
           c.timestamp = e.created_at ∧ c.hash = rc.sha.take 7) ∧
    (∀ (api : Api) (tu repos : List String) (org : Option String) (d : Int)
       (cfg : EODConfig),
       (∀ u ∈ tu, api.userPublicEvents u = []) →
       ∀ con ∈ process cfg (fetchEvents api tu repos org d).2,
         (∀ c ∈ con.commits, c.timestamp = dayStart d) ∧
         List.insertionSort commitLeDesc con.commits = con.commits) := by
  constructor
  · intro cfg events con c hcon hc
    obtain ⟨e, he, cs, hcs, rc, hrc, hmk⟩ :=
      process_commit_provenance cfg events con c hcon hc
    subst hmk
    refine ⟨e, he, cs, hcs, rc, hrc, ?_, ?_, ?_⟩
    · rfl
    · rfl
    · simp [mkCommit]
  · intro api tu repos org d cfg huser con hcon
    have hts : ∀ c ∈ con.commits, c.timestamp = dayStart d := by
      intro c hc
      obtain ⟨e, he, cs, hcs, rc, hrc, hmk⟩ :=
        process_commit_provenance cfg _ con c hcon hc
      subst hmk
      show e.created_at = dayStart d
      exact fetchEvents_created_at api tu repos org d huser e he
    exact ⟨hts, (sorted_of_const_timestamp (dayStart d) con.commits hts).insertionSort_eq⟩

set_option maxHeartbeats 2000000 in
theorem c10_event_timestamp_and_noop_sort_witness :
    ((⟨"1234567", "m", "alice", 0⟩ : Commit).timestamp = dayStart 0 ∧
     List.insertionSort commitLeDesc
       (⟨"o/r", [⟨"1234567", "m", "alice", 0⟩]⟩ : Contribution).commits =
       (⟨"o/r", [⟨"1234567", "m", "alice", 0⟩]⟩ : Contribution).commits) := by
  have h := c10_event_timestamp_and_noop_sort.2
    ⟨fun _ => [], ["o/r"],
      fun r => if r == "o/r" then [⟨"1234567abc", "m", "alice", "e", none⟩] else [],
      fun _ => []⟩
    ["alice"] [] none 0 ⟨[], ["alice"], 0⟩
    (by decide)
    ⟨"o/r", [⟨"1234567", "m", "alice", 0⟩]⟩ (by decide)
  exact ⟨h.1 ⟨"1234567", "m", "alice", 0⟩ (by decide), h.2⟩
